import Mathlib

/-!
Shallow embedding of the `vehicle_ocr` extraction pipeline
(`src/vehicle_ocr/parser.py`, `src/vehicle_ocr/preprocessor.py`).

Text is modelled as `List Char`; the floating-point region ratios and
scale factors are modelled as exact rationals with the Python `int()`
truncation made explicit; OCR calls are external collaborators and
appear as `Option String` oracle outcomes (`none` = the engine raised).
-/

/-- Accumulator of Python `max(xs, key=f)`: the current best is replaced
only when the new key is strictly larger, so among equal keys the
earliest element wins. -/
def pyMaxAux {α : Type} (key : α → Nat) (acc : α) : List α → α
  | [] => acc
  | x :: xs => pyMaxAux key (if key acc < key x then x else acc) xs

/-- Python `max(xs, key=f)`; `none` on the empty list. -/
def pyMax {α : Type} (key : α → Nat) : List α → Option α
  | [] => none
  | x :: xs => some (pyMaxAux key x xs)

/-- Model of Python `str.upper()` restricted to the alphabets this pipeline
sees (ASCII Latin and Cyrillic); other characters are untouched. -/
def pyUpper (c : Char) : Char :=
  if 'a' ≤ c ∧ c ≤ 'z' then Char.ofNat (c.toNat - 32)
  else if 'а' ≤ c ∧ c ≤ 'я' then Char.ofNat (c.toNat - 32)
  else if c = 'ё' then 'Ё'
  else c

/-- ASCII uppercase Latin letter. -/
def isAZ (c : Char) : Bool := decide ('A' ≤ c ∧ c ≤ 'Z')

/-- Character class of `VIN_PATTERN = [A-HJ-NPR-Z0-9]`: uppercase Latin
without I, O, Q, or a decimal digit. -/
def vinChar (c : Char) : Bool :=
  (isAZ c && !(decide (c = 'I') || decide (c = 'O') || decide (c = 'Q'))) || c.isDigit

/-- Model of Python `str.isalpha` for the alphabets in play
(ASCII Latin letters and the Cyrillic block). -/
def pyIsAlpha (c : Char) : Bool :=
  isAZ c || decide ('a' ≤ c ∧ c ≤ 'z') || decide (0x400 ≤ c.toNat ∧ c.toNat ≤ 0x4FF)

/-- Document image: a height x width pixel grid (`preprocessor.py` works on
numpy arrays; the channel count is irrelevant to the verified claims). -/
structure Image where
  height : Nat
  width : Nat
  pixel : Nat → Nat → Nat

/-- Python `int()` applied to a real value: truncation toward zero. -/
def pyInt (q : ℚ) : Int := if q < 0 then ⌈q⌉ else ⌊q⌋

/-- Normalisation of one slice endpoint, as Python/numpy `l[a:b]` does it:
negative indices count from the end (clamped at 0), others are clamped
at the length. -/
def sliceBound (h : Nat) (i : Int) : Nat :=
  if i < 0 then (i + h).toNat else min i.toNat h

/-- `ImagePreprocessor.extract_region`: `start_y = int(height*start_ratio)`,
`end_y = int(height*end_ratio)`, result `image[start_y:end_y, :]`. -/
def extract_region (img : Image) (s e : ℚ) : Image :=
  let sy := sliceBound img.height (pyInt ((img.height : ℚ) * s))
  let ey := sliceBound img.height (pyInt ((img.height : ℚ) * e))
  { height := ey - sy, width := img.width, pixel := fun r c => img.pixel (sy + r) c }

/-- `ImagePreprocessor.upscale_if_needed`.  Returns the input unchanged when
`height >= min_height`; otherwise computes `scale = min_height / height` and
resizes to `(int(width*scale), int(height*scale))`.  On a zero-height region
the `min_height / height` division raises `ZeroDivisionError`, modelled as
`none`.  The interpolation kernel (`cv2.resize`) is an external collaborator:
only the output shape is determined by the repository code, so pixel content
is filled by index remapping. -/
def upscale_if_needed (minHeight : Nat) (img : Image) : Option Image :=
  if minHeight ≤ img.height then some img
  else if img.height = 0 then none
  else
    let scale : ℚ := (minHeight : ℚ) / (img.height : ℚ)
    let newW : Nat := (pyInt ((img.width : ℚ) * scale)).toNat
    let newH : Nat := (pyInt ((img.height : ℚ) * scale)).toNat
    some { height := newH, width := newW,
           pixel := fun r c => img.pixel (r * img.height / newH) (c * img.width / newW) }

/-- `ImagePreprocessor.char_map`, in Python dict insertion order: Latin
glyphs (and the digit 0) OCR-confused with Cyrillic letters, mapped onto the
Cyrillic codepoints. -/
def char_map : List (Char × Char) :=
  [('O', 'О'), ('o', 'о'), ('0', 'О'),
   ('B', 'В'), ('b', 'в'),
   ('A', 'А'), ('a', 'а'),
   ('E', 'Е'), ('e', 'е'),
   ('K', 'К'), ('k', 'к'),
   ('M', 'М'), ('m', 'м'),
   ('H', 'Н'), ('h', 'н'),
   ('P', 'Р'), ('p', 'р'),
   ('C', 'С'), ('c', 'с'),
   ('T', 'Т'), ('t', 'т'),
   ('Y', 'У'), ('y', 'у'),
   ('X', 'Х'), ('x', 'х')]

/-- Python `text.replace(k, v)` for single-character `k`, `v`: a map over
the characters. -/
def replaceChar (k v : Char) (cs : List Char) : List Char :=
  cs.map fun c => if c = k then v else c

/-- `ImagePreprocessor.normalize_to_cyrillic`: one `str.replace` per table
entry, applied in table order. -/
def normalize_to_cyrillic (cs : List Char) : List Char :=
  char_map.foldl (fun t kv => replaceChar kv.1 kv.2 t) cs

/-- The effect of the substitution table on one character. -/
def normChar (c : Char) : Char :=
  char_map.foldl (fun x kv => if x = kv.1 then kv.2 else x) c

/-- Character of the Cyrillic Unicode block. -/
def isCyrillic (c : Char) : Bool := decide (0x400 ≤ c.toNat ∧ c.toNat ≤ 0x4FF)

/-- Cleaning step of `extract_vin` and of the body-number sweep:
`re.sub(r'[^A-Z0-9]', '', text.upper())`. -/
def cleanAZ09 (cs : List Char) : List Char :=
  (cs.map pyUpper).filter fun c => isAZ c || c.isDigit

/-- Python `VIN_PATTERN.match(candidate)`: `re.match` anchors at the start
only, so it holds iff the first 17 characters exist and are in the VIN
class. -/
def vinMatch (w : List Char) : Bool :=
  decide (17 ≤ w.length) && (w.take 17).all vinChar

/-- The 17-character sliding windows `cleaned[i:i+17]` for
`i in range(len(cleaned) - 16)`. -/
def windows17 (cs : List Char) : List (List Char) :=
  (List.range (cs.length - 16)).map fun i => (cs.drop i).take 17

/-- Candidates collected from one raw OCR text: clean, slide the window,
keep the windows accepted by `VIN_PATTERN.match`. -/
def vinCandidates (t : List Char) : List (List Char) :=
  (windows17 (cleanAZ09 t)).filter vinMatch

/-- `vin_score` from `extract_vin`: +10 for an alphabetic first character,
plus the digit count of positions `[9:17]`. -/
def vin_score (v : List Char) : Nat :=
  (if pyIsAlpha (v.headD '0') then 10 else 0) + ((v.drop 9).take 8).countP fun c => c.isDigit

/-- Candidate collection across a sweep of OCR passes, in pass order.  Each
pass outcome is `some text` or `none` for a raised OCR exception; the
`try/except: pass` of the source makes a failed pass contribute nothing
while the loop continues. -/
def sweepCandidates : List (Option String) → List (List Char)
  | [] => []
  | some t :: rest => vinCandidates t.data ++ sweepCandidates rest
  | none :: rest => sweepCandidates rest

/-- `VehicleParser.extract_vin`, parameterised by the outcomes of the OCR
passes (the source runs one pass per PSM mode in `[3, 6]`): collect window
candidates, return `None` if there are none, else `max(candidates,
key=vin_score)`. -/
def extract_vin (texts : List (Option String)) : Option (List Char) :=
  pyMax vin_score (sweepCandidates texts)

/-- First-seen deduplication (the key order of a Python `Counter`), with an
accumulator of already-seen elements. -/
def dedupFSAux {α : Type} [DecidableEq α] (seen : List α) : List α → List α
  | [] => []
  | x :: xs => if x ∈ seen then dedupFSAux seen xs else x :: dedupFSAux (seen ++ [x]) xs

/-- Distinct elements of a list in first-seen order. -/
def dedupFS {α : Type} [DecidableEq α] (l : List α) : List α := dedupFSAux [] l

/-- Structural part of `combined_score`: +5 for an alphabetic first
character, plus the digit count of positions `[9:17]`. -/
def struct_score (v : List Char) : Nat :=
  (if pyIsAlpha (v.headD '0') then 5 else 0) + ((v.drop 9).take 8).countP fun c => c.isDigit

/-- `combined_score` of one distinct candidate: frequency times 10 plus the
structural score. -/
def combined_score (l : List (List Char)) (c : List Char) : Nat :=
  l.count c * 10 + struct_score c

/-- `Counter(all_candidates).items()`: distinct candidates in first-seen
order, each with its multiplicity. -/
def counterItems (l : List (List Char)) : List (List Char × Nat) :=
  (dedupFS l).map fun c => (c, l.count c)

/-- Consensus selection of `_extract_with_multiple_strategies`:
`max(counter.items(), key=combined_score)[0]`, `None` when there are no
candidates. -/
def bodySelect (l : List (List Char)) : Option (List Char) :=
  (pyMax (fun item => item.2 * 10 + struct_score item.1) (counterItems l)).map Prod.fst

/-- `VehicleParser.extract_body_number` =
`_extract_with_multiple_strategies`, parameterised by the outcomes of the
up-to-36 variant OCR passes in sweep order. -/
def extract_body_number (texts : List (Option String)) : Option (List Char) :=
  bodySelect (sweepCandidates texts)

/-- Letter class of `REG_NUMBER_PATTERN`: the twelve Cyrillic letters legal
on Russian plates. -/
def plateLetter (c : Char) : Bool :=
  decide (c ∈ ['А', 'В', 'Е', 'К', 'М', 'Н', 'О', 'Р', 'С', 'Т', 'У', 'Х'])

/-- Exact match of `REG_NUMBER_PATTERN =
`[АВЕКМНОРСТУХ]\d{3}[АВЕКМНОРСТУХ]{2}\d{2,3}`: letter, three digits, two
letters, then two or three digits. -/
def isPlate : List Char → Bool
  | [a, b, c, d, e, f, g, h] =>
    plateLetter a && b.isDigit && c.isDigit && d.isDigit &&
    plateLetter e && plateLetter f && g.isDigit && h.isDigit
  | [a, b, c, d, e, f, g, h, i] =>
    plateLetter a && b.isDigit && c.isDigit && d.isDigit &&
    plateLetter e && plateLetter f && g.isDigit && h.isDigit && i.isDigit
  | _ => false

/-- Leftmost regex match of the plate pattern (`findall(...)[0]`): scan
positions left to right, and at each position prefer the greedy 9-character
match over the 8-character one. -/
def findPlate : List Char → Option (List Char)
  | [] => none
  | c :: cs =>
    if isPlate ((c :: cs).take 9) then some ((c :: cs).take 9)
    else if isPlate ((c :: cs).take 8) then some ((c :: cs).take 8)
    else findPlate cs

/-- `.replace(' ', '').replace('\n', '')` on a match. -/
def stripSpaceNewline (cs : List Char) : List Char :=
  cs.filter fun c => !(decide (c = ' ') || decide (c = Char.ofNat 10))

/-- Fallback line cleaning: `re.sub(r'[^А-Я0-9]', '', line)`. -/
def cleanCyr (cs : List Char) : List Char :=
  cs.filter fun c => decide ('А' ≤ c ∧ c ≤ 'Я') || c.isDigit

/-- Fallback acceptance test of `extract_reg_number`: length bounds, at
least one letter and one digit, letter count 3..4 and digit count 4..6. -/
def fallbackAccept (minLen maxLen : Nat) (cl : List Char) : Bool :=
  decide (minLen ≤ cl.length ∧ cl.length ≤ maxLen) &&
  (cl.any fun c => decide ('А' ≤ c ∧ c ≤ 'Я')) &&
  (cl.any fun c => c.isDigit) &&
  decide (3 ≤ cl.countP (fun c => pyIsAlpha c = true) ∧
          cl.countP (fun c => pyIsAlpha c = true) ≤ 4 ∧
          4 ≤ cl.countP (fun c => c.isDigit = true) ∧
          cl.countP (fun c => c.isDigit = true) ≤ 6)

/-- Line-by-line fallback scan of `extract_reg_number`. -/
def findFallback (minLen maxLen : Nat) : List (List Char) → Option (List Char)
  | [] => none
  | ln :: rest =>
    if fallbackAccept minLen maxLen (cleanCyr ln) then some (cleanCyr ln)
    else findFallback minLen maxLen rest

/-- `VehicleParser.extract_reg_number` from the raw OCR text onward:
uppercase, normalise to Cyrillic, return the first pattern match with
spaces/newlines stripped, else fall back to the per-line heuristic. -/
def extract_reg_number (minLen maxLen : Nat) (text : List Char) : Option (List Char) :=
  let normalized := normalize_to_cyrillic (text.map pyUpper)
  match findPlate normalized with
  | some m => some (stripSpaceNewline m)
  | none => findFallback minLen maxLen (normalized.splitOn (Char.ofNat 10))

/-- `ExtractionResult`: one record per document. -/
structure ExtractionResult where
  file : String
  reg_number : Option (List Char)
  vin : Option (List Char)
  body_number : Option (List Char)
deriving DecidableEq

/-- One input document: file name plus the decoded image, `none` when
`cv2.imread` failed. -/
structure Document where
  name : String
  image : Option Image

/-- `VehicleParser.parse_document`, parameterised by the three field
extractors (each wraps external OCR calls): raises `ValueError` (modelled
as `Except.error`) when the image failed to decode, otherwise runs the
three extractions independently. -/
def parse_document (er ev eb : Image → Option (List Char)) (d : Document) :
    Except String ExtractionResult :=
  match d.image with
  | none => Except.error d.name
  | some img => Except.ok { file := d.name, reg_number := er img, vin := ev img, body_number := eb img }

/-- `VehicleParser.process_directory`: per document, catch any exception
from `parse_document`, report it, append an all-empty result, and
continue. -/
def process_directory (er ev eb : Image → Option (List Char)) (docs : List Document) :
    List ExtractionResult :=
  docs.map fun d =>
    match parse_document er ev eb d with
    | Except.ok r => r
    | Except.error _ => { file := d.name, reg_number := none, vin := none, body_number := none }

/-- A 1x1 test image. -/
def imgUnit : Image := { height := 1, width := 1, pixel := fun _ _ => 0 }

/-- A zero-height test region of width 5. -/
def imgFlat : Image := { height := 0, width := 5, pixel := fun _ _ => 0 }

/-- A 400x100 test region (below the default 800px minimum). -/
def imgSmall : Image := { height := 400, width := 100, pixel := fun _ _ => 0 }

/-- A 10x7 test image. -/
def imgTen : Image := { height := 10, width := 7, pixel := fun _ _ => 0 }

/-- A two-document batch whose first image failed to decode. -/
def docsTwo : List Document :=
  [{ name := "broken.jpg", image := none }, { name := "ok.jpg", image := some imgTen }]

/-- The accumulator run returns the first element of `acc :: xs` whose key is
maximal: everything before it is strictly smaller, everything after is no
larger. -/
theorem pyMaxAux_firstMax {α : Type} (key : α → Nat) (xs : List α) :
    ∀ acc : α, ∃ pre suf, acc :: xs = pre ++ pyMaxAux key acc xs :: suf ∧
      (∀ a ∈ pre, key a < key (pyMaxAux key acc xs)) ∧
      (∀ a ∈ suf, key a ≤ key (pyMaxAux key acc xs)) := by
  induction xs with
  | nil =>
    intro acc
    exact ⟨[], [], rfl, by simp, by simp⟩
  | cons x xs ih =>
    intro acc
    by_cases hx : key acc < key x
    · have hstep : pyMaxAux key acc (x :: xs) = pyMaxAux key x xs := by
        simp [pyMaxAux, hx]
      obtain ⟨pre, suf, hdec, hpre, hsuf⟩ := ih x
      rcases pre with _ | ⟨p, pre⟩
      · have h2 := (List.cons.injEq _ _ _ _).mp (by simpa using hdec)
        refine ⟨[acc], suf, ?_, ?_, ?_⟩
        · rw [hstep, ← h2.1, ← h2.2]
          simp
        · intro a ha
          rw [List.mem_singleton] at ha
          subst ha
          rw [hstep, ← h2.1]
          exact hx
        · intro a ha
          rw [hstep]
          exact hsuf a ha
      · have h2 := (List.cons.injEq _ _ _ _).mp (by simpa using hdec)
        refine ⟨acc :: p :: pre, suf, ?_, ?_, ?_⟩
        · rw [hstep]
          exact congrArg (fun t => acc :: t) hdec
        · intro a ha
          have hp : key p < key (pyMaxAux key x xs) := hpre p (by simp)
          rw [hstep]
          rcases List.mem_cons.mp ha with h | h
          · subst h
            rw [← h2.1] at hp
            omega
          · rcases List.mem_cons.mp h with h3 | h3
            · subst h3; exact hp
            · exact hpre a (by simp [h3])
        · intro a ha
          rw [hstep]
          exact hsuf a ha
    · have hstep : pyMaxAux key acc (x :: xs) = pyMaxAux key acc xs := by
        simp [pyMaxAux, hx]
      obtain ⟨pre, suf, hdec, hpre, hsuf⟩ := ih acc
      rcases pre with _ | ⟨p, pre⟩
      · have h2 := (List.cons.injEq _ _ _ _).mp (by simpa using hdec)
        refine ⟨[], x :: suf, ?_, by simp, ?_⟩
        · rw [hstep, ← h2.1, ← h2.2]
          simp
        · intro a ha
          rw [hstep]
          rcases List.mem_cons.mp ha with h | h
          · subst h
            rw [← h2.1]
            omega
          · exact hsuf a h
      · have h2 := (List.cons.injEq _ _ _ _).mp (by simpa using hdec)
        refine ⟨acc :: x :: pre, suf, ?_, ?_, ?_⟩
        · rw [hstep]
          exact congrArg (fun t => acc :: x :: t) h2.2
        · intro a ha
          have hacc : key acc < key (pyMaxAux key acc xs) := by
            have hp := hpre p (by simp)
            rw [← h2.1] at hp
            exact hp
          rw [hstep]
          rcases List.mem_cons.mp ha with h | h
          · subst h; exact hacc
          · rcases List.mem_cons.mp h with h3 | h3
            · subst h3; omega
            · exact hpre a (by simp [h3])
        · intro a ha
          rw [hstep]
          exact hsuf a ha

/-- Python `max` on a nonempty list returns the first element of maximal key. -/
theorem pyMax_firstMax {α : Type} (key : α → Nat) (l : List α) (h : l ≠ []) :
    ∃ r pre suf, pyMax key l = some r ∧ l = pre ++ r :: suf ∧
      (∀ a ∈ pre, key a < key r) ∧ (∀ a ∈ suf, key a ≤ key r) := by
  cases l with
  | nil => exact absurd rfl h
  | cons x xs =>
    obtain ⟨pre, suf, hdec, hpre, hsuf⟩ := pyMaxAux_firstMax key xs x
    exact ⟨pyMaxAux key x xs, pre, suf, rfl, hdec, hpre, hsuf⟩

/-- The element returned by Python `max` is a member of the list. -/
theorem pyMax_mem {α : Type} (key : α → Nat) (l : List α) (r : α)
    (h : pyMax key l = some r) : r ∈ l := by
  cases l with
  | nil => simp [pyMax] at h
  | cons x xs =>
    obtain ⟨r2, pre, suf, he, hdec, _, _⟩ := pyMax_firstMax key (x :: xs) (by simp)
    rw [he] at h
    obtain rfl := Option.some.inj h
    rw [hdec]
    simp

/-- `pyMaxAux` commutes with mapping, when the key factors through the map. -/
theorem pyMaxAux_map {α β : Type} (key : β → Nat) (f : α → β) (xs : List α) :
    ∀ a : α, pyMaxAux key (f a) (xs.map f) = f (pyMaxAux (fun z => key (f z)) a xs) := by
  induction xs with
  | nil => intro a; rfl
  | cons x xs ih =>
    intro a
    simp only [List.map_cons, pyMaxAux]
    rw [← apply_ite f]
    exact ih _

theorem floor_natMul_nonneg {h : Nat} {q : ℚ} (hq : 0 ≤ q) :
    0 ≤ ⌊(h : ℚ) * q⌋ :=
  Int.le_floor.mpr (by exact_mod_cast mul_nonneg (by positivity) hq)

theorem pyInt_of_nonneg {q : ℚ} (hq : 0 ≤ q) : pyInt q = ⌊q⌋ := by
  rw [pyInt, if_neg (not_lt.mpr hq)]

/-- C3: for all `0 ≤ start < end ≤ 1`, `extract_region` keeps the full width
and returns exactly `⌊H*end⌋ - ⌊H*start⌋` rows. -/
theorem extract_region_shape (img : Image) (s e : ℚ)
    (h0 : 0 ≤ s) (h1 : s < e) (h2 : e ≤ 1) :
    ((extract_region img s e).height : Int)
      = ⌊(img.height : ℚ) * e⌋ - ⌊(img.height : ℚ) * s⌋ ∧
    (extract_region img s e).width = img.width := by
  have hh : (0 : ℚ) ≤ (img.height : ℚ) := by positivity
  have hs0 : 0 ≤ (img.height : ℚ) * s := mul_nonneg hh h0
  have he0 : 0 ≤ (img.height : ℚ) * e := mul_nonneg hh (le_trans h0 (le_of_lt h1))
  have hse : (img.height : ℚ) * s ≤ (img.height : ℚ) * e :=
    mul_le_mul_of_nonneg_left (le_of_lt h1) hh
  have heh : (img.height : ℚ) * e ≤ (img.height : ℚ) := by
    calc (img.height : ℚ) * e ≤ (img.height : ℚ) * 1 := mul_le_mul_of_nonneg_left h2 hh
    _ = (img.height : ℚ) := mul_one _
  have hfs0 : 0 ≤ ⌊(img.height : ℚ) * s⌋ := Int.le_floor.mpr (by exact_mod_cast hs0)
  have hfe0 : 0 ≤ ⌊(img.height : ℚ) * e⌋ := Int.le_floor.mpr (by exact_mod_cast he0)
  have hfse : ⌊(img.height : ℚ) * s⌋ ≤ ⌊(img.height : ℚ) * e⌋ := Int.floor_le_floor hse
  have hfeh : ⌊(img.height : ℚ) * e⌋ ≤ (img.height : Int) := by
    have := Int.floor_le_floor heh
    simpa using this
  have hfsh : ⌊(img.height : ℚ) * s⌋ ≤ (img.height : Int) := le_trans hfse hfeh
  refine ⟨?_, rfl⟩
  show (((sliceBound img.height (pyInt ((img.height : ℚ) * e)))
        - (sliceBound img.height (pyInt ((img.height : ℚ) * s))) : Nat) : Int) = _
  rw [pyInt_of_nonneg hs0, pyInt_of_nonneg he0]
  rw [sliceBound, sliceBound, if_neg (not_lt.mpr hfs0), if_neg (not_lt.mpr hfe0)]
  have t1 : (⌊(img.height : ℚ) * s⌋).toNat ≤ img.height := Int.toNat_le.mpr hfsh
  have t2 : (⌊(img.height : ℚ) * e⌋).toNat ≤ img.height := Int.toNat_le.mpr hfeh
  rw [Nat.min_eq_left t1, Nat.min_eq_left t2]
  omega

theorem extract_region_shape_witness :
    ((extract_region imgTen 0 (1/2)).height : Int)
      = ⌊(imgTen.height : ℚ) * (1/2)⌋ - ⌊(imgTen.height : ℚ) * 0⌋ ∧
    (extract_region imgTen 0 (1/2)).width = imgTen.width :=
  extract_region_shape imgTen 0 (1/2) (by norm_num) (by norm_num) (by norm_num)

/-- C6 counterexample: the claim asserts that whenever a ratio is outside
`[0,1]` the region is empty, but with `start = 0 < end = 2` (so `end` out of
range) the slice is only clamped: on a 1-row image it returns 1 row, not 0. -/
theorem extract_region_out_of_range_nonempty :
    (1 : ℚ) < 2 ∧ (0 : ℚ) < 2 ∧ (extract_region imgUnit 0 2).height = 1 := by
  refine ⟨by norm_num, by norm_num, ?_⟩
  simp only [extract_region, imgUnit]
  norm_num [sliceBound, pyInt]

/-- C6 amended: for nonnegative ratios with `start_ratio ≥ end_ratio` the
returned region has zero rows (the function is total, so no error is
raised); ratios outside `[0,1]` are only clamped and can yield non-empty
regions. -/
theorem extract_region_degenerate_empty (img : Image) (s e : ℚ)
    (h0 : 0 ≤ e) (h : e ≤ s) :
    (extract_region img s e).height = 0 := by
  have hh : (0 : ℚ) ≤ (img.height : ℚ) := by positivity
  have he0 : 0 ≤ (img.height : ℚ) * e := mul_nonneg hh h0
  have hs0 : 0 ≤ (img.height : ℚ) * s := mul_nonneg hh (le_trans h0 h)
  have hse : (img.height : ℚ) * e ≤ (img.height : ℚ) * s :=
    mul_le_mul_of_nonneg_left h hh
  have hf : ⌊(img.height : ℚ) * e⌋ ≤ ⌊(img.height : ℚ) * s⌋ := Int.floor_le_floor hse
  have hfs0 : 0 ≤ ⌊(img.height : ℚ) * s⌋ := Int.le_floor.mpr (by exact_mod_cast hs0)
  have hfe0 : 0 ≤ ⌊(img.height : ℚ) * e⌋ := Int.le_floor.mpr (by exact_mod_cast he0)
  show (sliceBound img.height (pyInt ((img.height : ℚ) * e)))
        - (sliceBound img.height (pyInt ((img.height : ℚ) * s))) = 0
  rw [pyInt_of_nonneg hs0, pyInt_of_nonneg he0]
  rw [sliceBound, sliceBound, if_neg (not_lt.mpr hfs0), if_neg (not_lt.mpr hfe0)]
  omega

theorem extract_region_degenerate_empty_witness :
    (extract_region imgTen (1/2) (1/4)).height = 0 :=
  extract_region_degenerate_empty imgTen (1/2) (1/4) (by norm_num) (by norm_num)

/-- C4 counterexample: a zero-height region is below the default 800px
minimum, yet upscaling divides by the region height and fails
(`ZeroDivisionError`, modelled `none`) instead of producing an output of
height at least the minimum. -/
theorem upscale_zero_height_fails :
    imgFlat.height < 800 ∧ upscale_if_needed 800 imgFlat = none :=
  ⟨by decide, rfl⟩

/-- C4 amended: when the input height is at least the minimum the output is
exactly the input; when the height is positive and below the minimum, both
dimensions are scaled by `minimum/height`, giving output height exactly the
minimum and width `⌊width * minimum/height⌋`; a zero-height region below
the minimum instead fails on the `minimum/height` division. -/
theorem upscale_if_needed_spec (minHeight : Nat) (img : Image) :
    (minHeight ≤ img.height → upscale_if_needed minHeight img = some img) ∧
    (0 < img.height → img.height < minHeight →
      (upscale_if_needed minHeight img).map Image.height = some minHeight ∧
      (upscale_if_needed minHeight img).map Image.width
        = some ((⌊(img.width : ℚ) * ((minHeight : ℚ) / (img.height : ℚ))⌋).toNat)) := by
  constructor
  · intro h
    rw [upscale_if_needed, if_pos h]
  · intro hpos hlt
    have hne : ¬ minHeight ≤ img.height := not_le.mpr hlt
    have hz : ¬ img.height = 0 := Nat.pos_iff_ne_zero.mp hpos
    have hq : (img.height : ℚ) ≠ 0 := by exact_mod_cast hz
    have hm : (img.height : ℚ) * ((minHeight : ℚ) / (img.height : ℚ)) = (minHeight : ℚ) := by
      field_simp
    rw [upscale_if_needed, if_neg hne, if_neg hz]
    constructor
    · show some ((pyInt ((img.height : ℚ) * ((minHeight : ℚ) / (img.height : ℚ)))).toNat)
          = some minHeight
      rw [hm, pyInt_of_nonneg (by positivity), Int.floor_natCast, Int.toNat_natCast]
    · show some ((pyInt ((img.width : ℚ) * ((minHeight : ℚ) / (img.height : ℚ)))).toNat)
          = some _
      rw [pyInt_of_nonneg (by positivity)]

theorem upscale_if_needed_spec_witness :
    (upscale_if_needed 800 imgSmall).map Image.height = some 800 ∧
    (upscale_if_needed 800 imgSmall).map Image.width
      = some ((⌊(imgSmall.width : ℚ) * ((800 : ℚ) / (imgSmall.height : ℚ))⌋).toNat) :=
  (upscale_if_needed_spec 800 imgSmall).2 (by decide) (by decide)

/-- A sequence of single-character replaces is the map of the per-character
substitution. -/
theorem foldl_replace_map (tl : List (Char × Char)) (cs : List Char) :
    tl.foldl (fun t kv => replaceChar kv.1 kv.2 t) cs
      = cs.map fun c => tl.foldl (fun x kv => if x = kv.1 then kv.2 else x) c := by
  induction tl generalizing cs with
  | nil => simp
  | cons kv tl ih =>
    simp only [List.foldl_cons]
    rw [ih (replaceChar kv.1 kv.2 cs), replaceChar, List.map_map]
    rfl

/-- Character-level view of `normalize_to_cyrillic`. -/
theorem normalize_eq_map (cs : List Char) :
    normalize_to_cyrillic cs = cs.map normChar :=
  foldl_replace_map char_map cs

/-- A character different from every key of a table is untouched by the
per-character substitution. -/
theorem foldl_subst_id (tl : List (Char × Char)) (c : Char)
    (h : ∀ kv ∈ tl, c ≠ kv.1) :
    tl.foldl (fun x kv => if x = kv.1 then kv.2 else x) c = c := by
  induction tl with
  | nil => rfl
  | cons kv tl ih =>
    simp only [List.foldl_cons]
    rw [if_neg (h kv (by simp))]
    exact ih fun p hp => h p (by simp [hp])

/-- Every key of the substitution table is below the Cyrillic block. -/
theorem char_map_keys_low : ∀ kv ∈ char_map, kv.1.toNat < 0x400 := by decide

/-- `normChar` fixes every character at or above the Cyrillic block. -/
theorem normChar_fixed (c : Char) (h : 0x400 ≤ c.toNat) : normChar c = c := by
  apply foldl_subst_id
  intro kv hkv he
  have := char_map_keys_low kv hkv
  rw [he] at h
  omega

/-- `normChar` rewrites every table key to its table value. -/
theorem normChar_maps_key : ∀ kv ∈ char_map, normChar kv.1 = kv.2 := by decide

/-- C5: glyph normalisation is the identity on already-Cyrillic text (hence
idempotent there); it rewrites every substitution-table key to its
documented Cyrillic value regardless of the surrounding context; the table
maps the digit 0 to Cyrillic О; and normalising "B883BO799" yields a string
containing Cyrillic В and Cyrillic О. -/
theorem normalize_to_cyrillic_spec :
    (∀ cs : List Char, (∀ c ∈ cs, isCyrillic c = true) → normalize_to_cyrillic cs = cs) ∧
    (∀ kv ∈ char_map, ∀ pre suf : List Char,
      normalize_to_cyrillic (pre ++ kv.1 :: suf)
        = normalize_to_cyrillic pre ++ kv.2 :: normalize_to_cyrillic suf) ∧
    ('0', 'О') ∈ char_map ∧
    'В' ∈ normalize_to_cyrillic "B883BO799".data ∧
    'О' ∈ normalize_to_cyrillic "B883BO799".data := by
  refine ⟨?_, ?_, by decide, by decide, by decide⟩
  · intro cs h
    rw [normalize_eq_map]
    have h2 : ∀ c ∈ cs, normChar c = c := by
      intro c hc
      apply normChar_fixed
      have := h c hc
      simp only [isCyrillic, decide_eq_true_eq] at this
      exact this.1
    calc cs.map normChar = cs.map id := List.map_congr_left h2
    _ = cs := List.map_id cs
  · intro kv hkv pre suf
    rw [normalize_eq_map, normalize_eq_map, normalize_eq_map, List.map_append,
      List.map_cons, normChar_maps_key kv hkv]

theorem normalize_to_cyrillic_spec_witness :
    normalize_to_cyrillic "ЖУК".data = "ЖУК".data ∧
    normalize_to_cyrillic ("Ш".data ++ '0' :: "Щ".data)
      = normalize_to_cyrillic "Ш".data ++ 'О' :: normalize_to_cyrillic "Щ".data :=
  ⟨normalize_to_cyrillic_spec.1 "ЖУК".data (by decide),
   normalize_to_cyrillic_spec.2.1 ('0', 'О') (by decide) "Ш".data "Щ".data⟩

/-- Every candidate accepted by the window collection is exactly 17
characters over the VIN alphabet: the window gives at most 17 characters,
and the `VIN_PATTERN.match` check forces at least 17 of them, all in the
class. -/
theorem vinCandidates_mem (t : List Char) (w : List Char)
    (hw : w ∈ vinCandidates t) : w.length = 17 ∧ w.all vinChar = true := by
  obtain ⟨hmem, hmatch⟩ := List.mem_filter.mp hw
  obtain ⟨i, _, hwi⟩ := List.mem_map.mp hmem
  have hle : w.length ≤ 17 := by
    rw [← hwi]
    simp
  simp only [vinMatch, Bool.and_eq_true, decide_eq_true_eq] at hmatch
  have hlen : w.length = 17 := le_antisymm hle hmatch.1
  refine ⟨hlen, ?_⟩
  have : w.take 17 = w := by
    rw [← hlen, List.take_length]
  rw [← this]
  exact hmatch.2

/-- Every candidate in the sweep pool came from some pass text. -/
theorem sweepCandidates_mem (texts : List (Option String)) (w : List Char)
    (hw : w ∈ sweepCandidates texts) : ∃ t : String, w ∈ vinCandidates t.data := by
  induction texts with
  | nil => simp [sweepCandidates] at hw
  | cons o rest ih =>
    cases o with
    | none => exact ih (by simpa [sweepCandidates] using hw)
    | some t =>
      rw [sweepCandidates, List.mem_append] at hw
      rcases hw with h | h
      · exact ⟨t, h⟩
      · exact ih h

/-- First-seen deduplication only returns elements of the input. -/
theorem dedupFSAux_subset {α : Type} [DecidableEq α] (l : List α) :
    ∀ (seen : List α) (c : α), c ∈ dedupFSAux seen l → c ∈ l := by
  induction l with
  | nil => intro seen c hc; simp [dedupFSAux] at hc
  | cons x xs ih =>
    intro seen c hc
    rw [dedupFSAux] at hc
    by_cases hx : x ∈ seen
    · rw [if_pos hx] at hc
      exact List.mem_cons_of_mem x (ih seen c hc)
    · rw [if_neg hx] at hc
      rcases List.mem_cons.mp hc with h | h
      · simp [h]
      · exact List.mem_cons_of_mem x (ih (seen ++ [x]) c h)

theorem dedupFS_subset {α : Type} [DecidableEq α] (l : List α) (c : α)
    (hc : c ∈ dedupFS l) : c ∈ l :=
  dedupFSAux_subset l [] c hc

/-- The consensus selection is Python `max` with key `combined_score` over
the distinct candidates in first-seen order. -/
theorem bodySelect_eq (l : List (List Char)) :
    bodySelect l = pyMax (combined_score l) (dedupFS l) := by
  rw [bodySelect, counterItems]
  cases h : dedupFS l with
  | nil => rfl
  | cons x xs =>
    rw [List.map_cons, pyMax, pyMax]
    have hm := pyMaxAux_map (fun item : List Char × Nat => item.2 * 10 + struct_score item.1)
        (fun c : List Char => (c, List.count c l)) xs x
    exact congrArg (fun z : List Char × Nat => some z.1) hm

/-- C2 counterexample: the cleaning step strips only characters outside
`A-Z0-9`, so I, O, Q survive it; a text of seventeen O's cleans to itself
and its unique 17-character window contains O, refuting that every window
of the cleaned string is over the VIN alphabet. -/
theorem vin_window_contains_O :
    ∃ w ∈ windows17 (cleanAZ09 "OOOOOOOOOOOOOOOOO".data),
      'O' ∈ w ∧ w.all vinChar = false := by decide

/-- C2 amended: the cleaning step uppercases and strips to the uppercase
alphanumerics (retaining I, O, Q), and each 17-character window is
re-validated against the VIN pattern; it is that re-validation which
guarantees every collected candidate has length 17 over the VIN
alphabet. -/
theorem vin_cleaning_candidates_spec (t : String) :
    (cleanAZ09 t.data).all (fun c => isAZ c || c.isDigit) = true ∧
    ∀ w ∈ vinCandidates t.data, w.length = 17 ∧ w.all vinChar = true := by
  constructor
  · rw [List.all_eq_true]
    intro c hc
    exact (List.mem_filter.mp hc).2
  · intro w hw
    exact vinCandidates_mem t.data w hw

theorem vin_cleaning_candidates_spec_witness :
    "WP1ZZZ9PZ9LA42290".data ∈ vinCandidates "WP1ZZZ9PZ9LA42290".data ∧
    "WP1ZZZ9PZ9LA42290".data.length = 17 ∧
    "WP1ZZZ9PZ9LA42290".data.all vinChar = true :=
  ⟨by decide,
   (vin_cleaning_candidates_spec "WP1ZZZ9PZ9LA42290").2 "WP1ZZZ9PZ9LA42290".data (by decide)⟩

/-- C7: a failing OCR pass in the ensemble sweep is swallowed: it
contributes no candidates, the later passes still contribute, and the
sweep with the failing pass inserted selects exactly the candidate the
sweep without it selects. -/
theorem sweep_failure_swallowed (pre post : List (Option String)) :
    extract_body_number (pre ++ none :: post) = extract_body_number (pre ++ post) := by
  have h : sweepCandidates (pre ++ none :: post) = sweepCandidates (pre ++ post) := by
    induction pre with
    | nil => rfl
    | cons o pre ih =>
      cases o with
      | none =>
        show sweepCandidates (pre ++ none :: post) = sweepCandidates (pre ++ post)
        exact ih
      | some t =>
        show vinCandidates t.data ++ sweepCandidates (pre ++ none :: post)
            = vinCandidates t.data ++ sweepCandidates (pre ++ post)
        rw [ih]
  rw [extract_body_number, extract_body_number, h]

/-- C10: whenever VIN extraction or body-number extraction returns a
string, that string has length exactly 17 and all of its characters are in
the VIN alphabet (digits or uppercase Latin letters other than I, O, Q),
for every possible list of OCR pass outcomes. -/
theorem vin_body_shape_spec (texts : List (Option String)) :
    (∀ s, extract_vin texts = some s → s.length = 17 ∧ s.all vinChar = true) ∧
    (∀ s, extract_body_number texts = some s → s.length = 17 ∧ s.all vinChar = true) := by
  constructor
  · intro s hs
    have hmem : s ∈ sweepCandidates texts := pyMax_mem vin_score _ s hs
    obtain ⟨t, ht⟩ := sweepCandidates_mem texts s hmem
    exact vinCandidates_mem t.data s ht
  · intro s hs
    rw [extract_body_number, bodySelect_eq] at hs
    have hmem : s ∈ dedupFS (sweepCandidates texts) := pyMax_mem _ _ s hs
    have hmem2 : s ∈ sweepCandidates texts := dedupFS_subset _ s hmem
    obtain ⟨t, ht⟩ := sweepCandidates_mem texts s hmem2
    exact vinCandidates_mem t.data s ht

theorem vin_body_shape_spec_witness :
    extract_vin [some "WP1ZZZ9PZ9LA42290"] = some "WP1ZZZ9PZ9LA42290".data ∧
    "WP1ZZZ9PZ9LA42290".data.length = 17 ∧
    "WP1ZZZ9PZ9LA42290".data.all vinChar = true :=
  ⟨by decide,
   (vin_body_shape_spec [some "WP1ZZZ9PZ9LA42290"]).1 "WP1ZZZ9PZ9LA42290".data (by decide)⟩

/-- C1: the consensus selection scores each distinct candidate as
`count * 10 + struct_score` and returns the one with the highest combined
score, ties broken by earliest-seen order among distinct candidates
(everything before the winner in first-seen order scores strictly lower,
everything after scores no higher), and the selection is a pure function of
the ordered candidate list, hence deterministic. -/
theorem body_consensus_first_seen_max (l : List (List Char)) (h : l ≠ []) :
    ∃ r pre suf,
      bodySelect l = some r ∧
      dedupFS l = pre ++ r :: suf ∧
      (∀ c ∈ pre, combined_score l c < combined_score l r) ∧
      (∀ c ∈ suf, combined_score l c ≤ combined_score l r) ∧
      bodySelect l = bodySelect l := by
  have hd : dedupFS l ≠ [] := by
    cases l with
    | nil => exact absurd rfl h
    | cons x xs => simp [dedupFS, dedupFSAux]
  obtain ⟨r, pre, suf, h1, h2, h3, h4⟩ := pyMax_firstMax (combined_score l) (dedupFS l) hd
  refine ⟨r, pre, suf, ?_, h2, h3, h4, rfl⟩
  rw [bodySelect_eq]
  exact h1

theorem body_consensus_first_seen_max_witness :
    ∃ r pre suf,
      bodySelect ["AB".data, "CD".data, "AB".data] = some r ∧
      dedupFS ["AB".data, "CD".data, "AB".data] = pre ++ r :: suf ∧
      (∀ c ∈ pre, combined_score ["AB".data, "CD".data, "AB".data] c
        < combined_score ["AB".data, "CD".data, "AB".data] r) ∧
      (∀ c ∈ suf, combined_score ["AB".data, "CD".data, "AB".data] c
        ≤ combined_score ["AB".data, "CD".data, "AB".data] r) ∧
      bodySelect ["AB".data, "CD".data, "AB".data]
        = bodySelect ["AB".data, "CD".data, "AB".data] :=
  body_consensus_first_seen_max ["AB".data, "CD".data, "AB".data] (by decide)

/-- A letter (in the modelled `isalpha` sense) is never a decimal digit. -/
theorem pyIsAlpha_not_digit (c : Char) (h : pyIsAlpha c = true) : c.isDigit = false := by
  simp only [pyIsAlpha, isAZ, Bool.or_eq_true, decide_eq_true_eq] at h
  cases hd : c.isDigit with
  | false => rfl
  | true =>
    exfalso
    simp only [Char.isDigit, Bool.and_eq_true, decide_eq_true_eq] at hd
    have h1 : 48 ≤ c.toNat := hd.1
    have h2 : c.toNat ≤ 57 := hd.2
    rcases h with (h3 | h3) | h3
    · have h4 : 65 ≤ c.toNat := h3.1
      omega
    · have h4 : 97 ≤ c.toNat := h3.1
      omega
    · have h4 : 1024 ≤ c.toNat := h3.1
      omega

/-- Any string matching the plate pattern contains a digit (its second
character). -/
theorem isPlate_has_digit (l : List Char) (h : isPlate l = true) :
    ∃ c ∈ l, c.isDigit = true := by
  rcases l with _ | ⟨x1, _ | ⟨x2, _ | ⟨x3, _ | ⟨x4, _ | ⟨x5, _ | ⟨x6, _ | ⟨x7, _ | ⟨x8, _ | ⟨x9, _ | ⟨x10, rest⟩⟩⟩⟩⟩⟩⟩⟩⟩⟩
  all_goals simp only [isPlate, Bool.and_eq_true] at h
  all_goals try exact absurd h Bool.false_ne_true
  · exact ⟨x2, by simp, by tauto⟩
  · exact ⟨x2, by simp, by tauto⟩

/-- On text without digits the plate pattern never matches at any
position. -/
theorem findPlate_no_digit (l : List Char) (h : ∀ c ∈ l, c.isDigit = false) :
    findPlate l = none := by
  induction l with
  | nil => rfl
  | cons x xs ih =>
    have hmem : ∀ (n : Nat) (c : Char), c ∈ x :: xs.take n → c ∈ x :: xs := by
      intro n c hc
      rcases List.mem_cons.mp hc with h1 | h1
      · simp [h1]
      · exact List.mem_cons_of_mem x (List.take_subset n xs h1)
    have h9 : isPlate (x :: xs.take 8) = false := by
      cases hval : isPlate (x :: xs.take 8) with
      | false => rfl
      | true =>
        obtain ⟨c, hc1, hc2⟩ := isPlate_has_digit _ hval
        have hf := h c (hmem 8 c hc1)
        rw [hf] at hc2
        exact absurd hc2 (by simp)
    have h8 : isPlate (x :: xs.take 7) = false := by
      cases hval : isPlate (x :: xs.take 7) with
      | false => rfl
      | true =>
        obtain ⟨c, hc1, hc2⟩ := isPlate_has_digit _ hval
        have hf := h c (hmem 7 c hc1)
        rw [hf] at hc2
        exact absurd hc2 (by simp)
    rw [findPlate, if_neg (by simp [h9]), if_neg (by simp [h8])]
    exact ih fun c hc => h c (List.mem_cons_of_mem x hc)

/-- C9: the plate pattern accepts "А123АА77" and "В883ВО799", rejects
"12345" and (at every position of) any all-letter string, and when the
pattern matches the normalised OCR text, plate extraction returns the
first (leftmost, greedy) match with spaces and newlines stripped. -/
theorem plate_pattern_spec :
    isPlate "А123АА77".data = true ∧
    isPlate "В883ВО799".data = true ∧
    findPlate "12345".data = none ∧
    (∀ l : List Char, (∀ c ∈ l, pyIsAlpha c = true) → findPlate l = none) ∧
    (∀ (minLen maxLen : Nat) (text m : List Char),
      findPlate (normalize_to_cyrillic (text.map pyUpper)) = some m →
      extract_reg_number minLen maxLen text = some (stripSpaceNewline m)) := by
  refine ⟨by decide, by decide, by decide, ?_, ?_⟩
  · intro l hl
    exact findPlate_no_digit l fun c hc => pyIsAlpha_not_digit c (hl c hc)
  · intro minLen maxLen text m hm
    rw [extract_reg_number]
    rw [hm]

theorem plate_pattern_spec_witness :
    findPlate "АБВГД".data = none ∧
    extract_reg_number 8 10 "B883BO799".data
      = some (stripSpaceNewline "В883ВО799".data) :=
  ⟨plate_pattern_spec.2.2.2.1 "АБВГД".data (by decide),
   plate_pattern_spec.2.2.2.2 8 10 "B883BO799".data "В883ВО799".data (by decide)⟩

/-- C8: a failed image load is fatal only for its own document: the batch
keeps one result per document, the failed document's record has all three
fields unset (the failure having been reported by `parse_document` as an
error), and every other document is still processed normally. -/
theorem process_directory_spec (er ev eb : Image → Option (List Char))
    (docs : List Document) :
    (process_directory er ev eb docs).length = docs.length ∧
    ∀ (i : Nat) (h : i < docs.length) (h2 : i < (process_directory er ev eb docs).length),
      ((docs.get ⟨i, h⟩).image = none →
        (process_directory er ev eb docs).get ⟨i, h2⟩
          = { file := (docs.get ⟨i, h⟩).name, reg_number := none, vin := none, body_number := none }) ∧
      (∀ img, (docs.get ⟨i, h⟩).image = some img →
        (process_directory er ev eb docs).get ⟨i, h2⟩
          = { file := (docs.get ⟨i, h⟩).name, reg_number := er img, vin := ev img, body_number := eb img }) := by
  refine ⟨List.length_map docs _, ?_⟩
  intro i h h2
  constructor
  · intro hnone
    simp only [List.get_eq_getElem] at hnone ⊢
    simp only [process_directory, List.getElem_map, parse_document, hnone]
  · intro img himg
    simp only [List.get_eq_getElem] at himg ⊢
    simp only [process_directory, List.getElem_map, parse_document, himg]

theorem process_directory_spec_witness :
    (process_directory (fun _ => none) (fun _ => none) (fun _ => none) docsTwo).length
      = docsTwo.length ∧
    (process_directory (fun _ => none) (fun _ => none) (fun _ => none) docsTwo).get
        ⟨0, by decide⟩
      = { file := "broken.jpg", reg_number := none, vin := none, body_number := none } ∧
    (process_directory (fun _ => none) (fun _ => none) (fun _ => none) docsTwo).get
        ⟨1, by decide⟩
      = { file := "ok.jpg", reg_number := none, vin := none, body_number := none } :=
  ⟨(process_directory_spec _ _ _ docsTwo).1,
   ((process_directory_spec _ _ _ docsTwo).2 0 (by decide) (by decide)).1 rfl,
   ((process_directory_spec _ _ _ docsTwo).2 1 (by decide) (by decide)).2 imgTen rfl⟩
